import Mathlib

/-!
Verification of the rag-frontend core: chunking, idempotent upsert,
retrieval ranking, query logging and the quiz state machine.

Text is modelled as `List Char` (`Str`); machine floats are modelled as
exact rationals (`ℚ`); database tables are modelled as in-memory lists of
rows; the external embedding service is modelled as an oracle function
passed in as a parameter.
-/

namespace RagFrontend

/-- Text is modelled as a list of characters. -/
abbrev Str := List Char

/-! ## Window chunker

Embeds `window_chunks` (`chunking.py`, also `ai_tutor/chunk_embed_store.py`;
`src/chunking.py`'s `chunk_text` is the same loop without the early break).
The Python `while` loop is modelled with explicit fuel, since for
`overlap ≥ max_chars` the loop does not terminate; `none` means the fuel ran
out, i.e. the Python loop has not finished within that many iterations. -/

/-- One fuelled run of the loop in `window_chunks`:

    while start < n:
        end = min(start + max_chars, n)
        out.append(text[start:end])
        if end == n: break
        start = max(0, end - overlap)

`text[start:end]` with `end = min(start+max_chars, n)` is
`(t.drop start).take maxChars`; `max 0 (end - overlap)` is Nat subtraction. -/
def windowLoopFuel : Nat → List Char → Nat → Nat → Nat → Option (List (List Char))
  | 0, _, _, _, _ => none
  | fuel + 1, t, maxChars, overlap, start =>
    if start < t.length then
      if min (start + maxChars) t.length = t.length then
        some [(t.drop start).take maxChars]
      else
        match windowLoopFuel fuel t maxChars overlap
            (min (start + maxChars) t.length - overlap) with
        | some rest => some ((t.drop start).take maxChars :: rest)
        | none => none
    else
      some []

/-- `window_chunks(text, max_chars, overlap)`: the loop with enough fuel to
finish whenever it terminates at all (the start strictly increases, so
`length + 1` iterations suffice). -/
def window_chunks (t : List Char) (maxChars overlap : Nat) : List (List Char) :=
  (windowLoopFuel (t.length + 1) t maxChars overlap 0).getD []

/-- Concatenation of chunks after removing the `overlap`-character
overlapping prefix of every chunk but the first. -/
def reconFrom (overlap : Nat) : List (List Char) → List Char
  | [] => []
  | c :: rest => c ++ (rest.map (List.drop overlap)).flatten

/-- The last `k` characters of a chunk. -/
def lastChars (k : Nat) (l : List Char) : List Char := l.drop (l.length - k)

/-- Each pair of consecutive chunks agrees on an `overlap`-character window:
the last `overlap` characters of one chunk are the first `overlap`
characters of the next. -/
def chainOverlap (overlap : Nat) : List (List Char) → Bool
  | a :: b :: rest => (lastChars overlap a == b.take overlap) && chainOverlap overlap (b :: rest)
  | _ => true

/-- Invariant of the `window_chunks` loop: with `overlap < max_chars` and
enough fuel, the loop starting at `start` succeeds and its output chunks
cover and reconstruct the suffix `t.drop start`, are bounded by `max_chars`,
and overlap pairwise by exactly `overlap` characters. -/
lemma windowLoop_sound (t : List Char) (mc ov : Nat) (hov : ov < mc) :
    ∀ fuel start, t.length - start < fuel → start < t.length →
    ∃ cs, windowLoopFuel fuel t mc ov start = some cs ∧
      cs.head? = some ((t.drop start).take mc) ∧
      reconFrom ov cs = t.drop start ∧
      (∀ c ∈ cs, c.length ≤ mc) ∧
      chainOverlap ov cs = true := by
  intro fuel
  induction fuel with
  | zero => intro start hf _; omega
  | succ f ih =>
    intro start hf hs
    by_cases he : min (start + mc) t.length = t.length
    · -- last chunk: end == n, loop breaks after appending text[start:n]
      refine ⟨[(t.drop start).take mc], ?_, rfl, ?_, ?_, rfl⟩
      · simp [windowLoopFuel, hs, he]
      · show (t.drop start).take mc ++ ([].map (List.drop ov)).flatten = t.drop start
        rw [List.map_nil, List.flatten_nil, List.append_nil]
        exact List.take_of_length_le (by simp [List.length_drop]; omega)
      · intro c hc
        simp only [List.mem_singleton] at hc
        subst hc
        simp [List.length_take]
    · -- continuing chunk: end = start + mc < n, next start is end - overlap
      have hlt : start + mc < t.length := by omega
      have hmin : min (start + mc) t.length = start + mc := by omega
      set start' := start + mc - ov with hstart'
      obtain ⟨rest, hreq, hrhead, hrrecon, hrlen, hrchain⟩ :=
        ih start' (by omega) (by omega)
      obtain ⟨hd, tl, rfl⟩ : ∃ hd tl, rest = hd :: tl := by
        cases rest with
        | nil => simp at hrhead
        | cons hd tl => exact ⟨hd, tl, rfl⟩
      have hhd : hd = (t.drop start').take mc := by
        simpa using hrhead
      have hclen : ((t.drop start).take mc).length = mc := by
        simp [List.length_take, List.length_drop]; omega
      have hhdlen : ov < hd.length := by
        subst hhd
        simp only [List.length_take, List.length_drop]
        omega
      refine ⟨(t.drop start).take mc :: hd :: tl, ?_, rfl, ?_, ?_, ?_⟩
      · have hne : start + mc ≠ t.length := by omega
        simp only [windowLoopFuel, if_pos hs, if_neg he, hmin]
        rw [hreq, if_neg hne]
      · -- reconstruction of the suffix
        simp only [reconFrom, List.map_cons, List.flatten_cons] at hrrecon ⊢
        have h1 : hd.drop ov ++ (tl.map (List.drop ov)).flatten =
            (t.drop start').drop ov := by
          rw [← hrrecon, List.drop_append_of_le_length (le_of_lt hhdlen)]
        rw [h1, List.drop_drop]
        have h3 : ∀ k, k = start' + ov → t.drop k = (t.drop start).drop mc := by
          intro k hk
          rw [List.drop_drop]
          congr 1
          omega
        rw [h3 _ rfl, List.take_append_drop]
      · intro c hc
        rcases List.mem_cons.mp hc with hc | hc
        · subst hc; simp [List.length_take]
        · exact hrlen c hc
      · -- the chained overlap between the new chunk and the next one
        have hlast : lastChars ov ((t.drop start).take mc) = hd.take ov := by
          have h5 : start + (mc - ov) = start' := by omega
          have h4 : mc - (mc - ov) = ov := by omega
          rw [lastChars, hclen, List.drop_take, List.drop_drop, h5, h4, hhd,
            List.take_take, min_eq_left (le_of_lt hov)]
        simp only [chainOverlap, Bool.and_eq_true, beq_iff_eq]
        exact ⟨hlast, hrchain⟩

/-- With `overlap ≥ max_chars` and a text longer than `max_chars`, the start
position of the `window_chunks` loop never advances past 0, so no amount of
fuel makes the loop finish. -/
lemma windowLoop_stuck (t : List Char) (mc ov : Nat) (hov : mc ≤ ov)
    (hlen : mc < t.length) : ∀ fuel, windowLoopFuel fuel t mc ov 0 = none := by
  intro fuel
  induction fuel with
  | zero => rfl
  | succ f ih =>
    have hs : 0 < t.length := by omega
    have hne : ¬ min (0 + mc) t.length = t.length := by omega
    have harg : min (0 + mc) t.length - ov = 0 := by omega
    simp only [windowLoopFuel, if_pos hs, if_neg hne]
    rw [harg, ih]

/-- C2: for every non-empty text and parameters `max_chars > overlap ≥ 0`,
the window strategy produces chunks of length at most `max_chars`,
consecutive chunks agree on an exactly-`overlap`-character window, and
concatenating the chunks after removing each later chunk's `overlap`-character
prefix reconstructs the original text (hence every character is covered). -/
theorem window_chunks_covers_and_reconstructs (t : List Char) (mc ov : Nat)
    (hne : t ≠ []) (hov : ov < mc) :
    (∀ c ∈ window_chunks t mc ov, c.length ≤ mc) ∧
    chainOverlap ov (window_chunks t mc ov) = true ∧
    reconFrom ov (window_chunks t mc ov) = t := by
  have hlen : 0 < t.length := List.length_pos.mpr hne
  obtain ⟨cs, heq, _, hrecon, hb, hchain⟩ :=
    windowLoop_sound t mc ov hov (t.length + 1) 0 (by omega) hlen
  unfold window_chunks
  rw [heq]
  simp only [Option.getD_some]
  rw [List.drop_zero] at hrecon
  exact ⟨hb, hchain, hrecon⟩

/-- Witness for C2 at a concrete input. -/
theorem window_chunks_covers_and_reconstructs_witness :
    reconFrom 1 (window_chunks ['a','b','c','d','e','f','g','h'] 4 1) =
      ['a','b','c','d','e','f','g','h'] ∧
    chainOverlap 1 (window_chunks ['a','b','c','d','e','f','g','h'] 4 1) = true :=
  ⟨(window_chunks_covers_and_reconstructs ['a','b','c','d','e','f','g','h'] 4 1
      (by decide) (by decide)).2.2,
   (window_chunks_covers_and_reconstructs ['a','b','c','d','e','f','g','h'] 4 1
      (by decide) (by decide)).2.1⟩

/-- C10: the sliding-window loop terminates whenever
`0 ≤ overlap < max_chars` (fuel `length + 1` suffices, because the start
strictly increases each iteration), and this precondition is necessary: with
`overlap ≥ max_chars` and a text longer than `max_chars` the start position
never advances, so the loop never finishes with any amount of fuel. -/
theorem window_loop_terminates_iff_overlap_lt :
    (∀ (t : List Char) (mc ov : Nat), ov < mc →
      (windowLoopFuel (t.length + 1) t mc ov 0).isSome = true) ∧
    (∀ (t : List Char) (mc ov fuel : Nat), mc ≤ ov → mc < t.length →
      windowLoopFuel fuel t mc ov 0 = none) := by
  constructor
  · intro t mc ov hov
    rcases Nat.eq_zero_or_pos t.length with h0 | hpos
    · rw [h0]
      simp [windowLoopFuel, h0]
    · obtain ⟨cs, heq, -, -, -, -⟩ :=
        windowLoop_sound t mc ov hov (t.length + 1) 0 (by omega) hpos
      rw [heq]
      rfl
  · intro t mc ov fuel h1 h2
    exact windowLoop_stuck t mc ov h1 h2 fuel

/-- Witness for C10 at concrete inputs. -/
theorem window_loop_terminates_iff_overlap_lt_witness :
    (windowLoopFuel 6 ['a','b','c','d','e'] 3 1 0).isSome = true ∧
    windowLoopFuel 100 ['a','b','c','d','e'] 2 2 0 = none :=
  ⟨window_loop_terminates_iff_overlap_lt.1 ['a','b','c','d','e'] 3 1 (by decide),
   window_loop_terminates_iff_overlap_lt.2 ['a','b','c','d','e'] 2 2 100
     (by decide) (by decide)⟩

/-! ## Header-aware chunker

Embeds the paragraph-accumulation loop and the `is_header` predicate of
`header_aware_chunks` (`chunking.py:98-124`, identical in
`ai_tutor/chunk_embed_store.py:134-160`).  The model starts from the
paragraph list (the `re.split(r"\n\s*\n")` pre-split is not modelled, the
claims are about the loop body and the header test). -/

/-- Characters at which Python `str.splitlines` breaks a line. -/
def isLineBreakChar (c : Char) : Bool :=
  c = '\n' || c = '\r' || c = '\x0b' || c = '\x0c' ||
  c = '\x1c' || c = '\x1d' || c = '\x1e' || c = '\u0085' ||
  c = ' ' || c = ' '

/-- First line of a paragraph: `p.splitlines()[0] if p else ""`. -/
def firstLine (p : Str) : Str := p.takeWhile (fun c => !isLineBreakChar c)

/-- Python `str.isupper`: at least one cased character and no lower-case
cased character (cased modelled as upper or lower case, ASCII-faithful). -/
def pyIsUpper (l : Str) : Bool := l.any Char.isUpper && !(l.any Char.isLower)

/-- Python `line.endswith(":")`. -/
def endsWithColon (l : Str) : Bool := l.getLast? == some ':'

/-- Whitespace for the regex class `\s` (Python `[ \t\n\r\f\v]`). -/
def isReWs (c : Char) : Bool := c.isWhitespace || c = '\x0b' || c = '\x0c'

/-- Greedy matcher for the regex fragment `(\.\d+)*`: repeatedly consume a
dot followed by at least one digit.  Greedy matching coincides with the
backtracking regex here because after giving back a group the next required
character would be `\s`, but the position holds a dot. -/
def eatDotDigitsFuel : Nat → List Char → List Char
  | 0, l => l
  | _ + 1, [] => []
  | fuel + 1, c :: rest =>
    if c = '.' then
      if rest.takeWhile Char.isDigit = [] then c :: rest
      else eatDotDigitsFuel fuel (rest.dropWhile Char.isDigit)
    else c :: rest

/-- Run the `(\.\d+)*` matcher with enough fuel to finish: each step
consumes at least two characters, so `length` steps always suffice. -/
def eatDotDigits (l : List Char) : List Char := eatDotDigitsFuel l.length l

/-- Matcher for the regex tail `\s+\S`: at least one whitespace character
followed by a non-whitespace character. -/
def wsThenNonWs (l : List Char) : Bool :=
  match l with
  | [] => false
  | c :: _ => isReWs c && !(l.dropWhile isReWs).isEmpty

/-- Upper-case roman numeral letters, the regex class `[IVXLC]`. -/
def isRomanChar (c : Char) : Bool :=
  c = 'I' || c = 'V' || c = 'X' || c = 'L' || c = 'C'

/-- Anchored match of `re.match(r"^(\d+(\.\d+)*|[IVXLC]+\.)\s+\S", line)`. -/
def markerMatch (line : Str) : Bool :=
  (!(line.takeWhile Char.isDigit).isEmpty &&
    wsThenNonWs (eatDotDigits (line.dropWhile Char.isDigit))) ||
  (!(line.takeWhile isRomanChar).isEmpty &&
    (match line.dropWhile isRomanChar with
     | '.' :: rest => wsThenNonWs rest
     | _ => false))

/-- The `is_header` predicate of `header_aware_chunks`: the 80-character
bound applies to the upper-case and colon tests; the numbered/roman marker
regex is checked on the first line with no length bound. -/
def is_header (p : Str) : Bool :=
  (decide ((firstLine p).length ≤ 80) &&
    (pyIsUpper (firstLine p) || endsWithColon (firstLine p))) ||
  markerMatch (firstLine p)

/-- Modelled from the spec: header test as the spec words it, with the
≤ 80-character requirement scoping over all three alternatives ("its first
line is short (≤80 chars) and is either fully upper-case, ends with a colon,
or begins with a numbered/roman-numeral list marker"). -/
def specHeaderRule (p : Str) : Bool :=
  decide ((firstLine p).length ≤ 80) &&
    (pyIsUpper (firstLine p) || endsWithColon (firstLine p) ||
      markerMatch (firstLine p))

/-- The buffer produced by one iteration of the accumulation loop before the
header check: either the paragraph is appended to the buffer (joined by a
blank line), or the buffer overflows and a fresh buffer is seeded with the
last `overlap` characters (`buf[-overlap:]`). -/
def headerAccumBuf (mc ov : Nat) (buf p : Str) : Str :=
  let add : Str := if buf.isEmpty then p else '\n' :: '\n' :: p
  if buf.length + add.length ≤ mc then buf ++ add
  else
    let tail : Str := if ov = 0 ∨ buf.isEmpty then [] else lastChars ov buf
    if tail.isEmpty then p else tail ++ '\n' :: '\n' :: p

/-- One iteration of the paragraph loop of `header_aware_chunks`: overflow
flush of the old buffer, accumulation, then the header-triggered early flush
(`if is_header(p) and len(buf) > max_chars`). -/
def headerStep (mc ov : Nat) (st : List Str × Str) (p : Str) : List Str × Str :=
  let buf := st.2
  let add : Str := if buf.isEmpty then p else '\n' :: '\n' :: p
  let chunks1 :=
    if buf.length + add.length ≤ mc ∨ buf.isEmpty then st.1 else st.1 ++ [buf]
  let buf1 := headerAccumBuf mc ov buf p
  if is_header p && decide (mc < buf1.length) then (chunks1 ++ [buf1], [])
  else (chunks1, buf1)

/-- `header_aware_chunks` on an already-split paragraph list: fold the loop,
flush the final buffer, then post-split any oversized chunk with the window
strategy. -/
def header_aware_chunks (paras : List Str) (mc ov : Nat) : List Str :=
  let st := paras.foldl (headerStep mc ov) ([], [])
  let chunks := if st.2.isEmpty then st.1 else st.1 ++ [st.2]
  (chunks.map (fun c => if mc < c.length then window_chunks c mc ov else [c])).flatten

/-- A 83-character single-line paragraph starting with the numbered marker
`1.2 `: longer than 80 characters, yet matched by the marker regex. -/
def longMarkerPara : Str := '1' :: '.' :: '2' :: ' ' :: List.replicate 79 'a'

/-- C3 counterexample: the code treats a first line beginning with a
numbered list marker as a header even when it is longer than 80 characters,
contradicting the claim that a header's first line is "at most 80 characters
long" in all three cases. -/
theorem header_rule_length_bound_counterexample :
    is_header longMarkerPara = true ∧ specHeaderRule longMarkerPara = false ∧
      80 < (firstLine longMarkerPara).length := by
  decide

/-- The accumulated buffer is never empty when the incoming paragraph is
non-empty. -/
lemma headerAccumBuf_ne_nil (mc ov : Nat) (buf p : Str) (hp : p ≠ []) :
    headerAccumBuf mc ov buf p ≠ [] := by
  by_cases hb : buf = []
  · subst hb
    simp only [headerAccumBuf, List.isEmpty_nil]
    split_ifs <;> simp [hp]
  · have hb' : buf.isEmpty = false := by simpa using hb
    simp only [headerAccumBuf, hb']
    split_ifs <;> simp [hp, hb]

/-- C3 (amended): a paragraph is a header exactly when its first line either
is at most 80 characters and (fully upper-case or colon-terminated), or
begins with a numbered/roman-numeral list marker (no length bound on the
marker case); and a header paragraph forces the early flush (empty buffer
out) exactly when the buffer, after the paragraph is accumulated, exceeds
`max_chars`. -/
theorem header_rule_and_flush_amended :
    (∀ p : Str, is_header p = true ↔
      (((firstLine p).length ≤ 80 ∧
          (pyIsUpper (firstLine p) = true ∨ (firstLine p).getLast? = some ':')) ∨
        markerMatch (firstLine p) = true)) ∧
    (∀ (mc ov : Nat) (chunks : List Str) (buf p : Str), p ≠ [] →
      ((headerStep mc ov (chunks, buf) p).2 = [] ↔
        (is_header p = true ∧ mc < (headerAccumBuf mc ov buf p).length))) := by
  constructor
  · intro p
    simp [is_header, endsWithColon, Bool.or_eq_true, Bool.and_eq_true,
      decide_eq_true_iff, and_assoc]
  · intro mc ov chunks buf p hp
    simp only [headerStep]
    by_cases hcond :
        (is_header p && decide (mc < (headerAccumBuf mc ov buf p).length)) = true
    · rw [if_pos hcond]
      simp only [Bool.and_eq_true, decide_eq_true_iff] at hcond
      simpa using hcond
    · rw [if_neg hcond]
      simp only [Bool.and_eq_true, decide_eq_true_iff] at hcond
      push_neg at hcond
      constructor
      · intro habs
        exact absurd habs (headerAccumBuf_ne_nil mc ov buf p hp)
      · rintro ⟨h1, h2⟩
        exact absurd h2 (not_lt.mpr (hcond h1))

/-- Witness for the amended C3 at concrete inputs. -/
theorem header_rule_and_flush_amended_witness :
    (headerStep 5 2 ([], ['a','b','c','d']) ['H','I',':']).2 = [] ↔
      (is_header ['H','I',':'] = true ∧
        5 < (headerAccumBuf 5 2 ['a','b','c','d'] ['H','I',':']).length) :=
  header_rule_and_flush_amended.2 5 2 [] ['a','b','c','d'] ['H','I',':']
    (by decide)

/-! ## Idempotent upsert

Embeds `upsert_chunks` (`ai_tutor/chunk_embed_store.py:219-274`): a MERGE
keyed on `(course, source_uri, chunk_no)` that updates the payload columns
of a matched row and inserts otherwise.  The table is modelled as a list of
rows in storage order; the unique index `doc_chunks_unique_ingest`
corresponds to the `UniqueKeys` invariant. -/

/-- A row of the `doc_chunks` table.  `sect` is the `section` column
(`section` is a Lean keyword). -/
structure ChunkRow where
  course : Str
  sourceUri : Str
  chunkNo : Nat
  sect : Option Str
  pageFrom : Option Nat
  pageTo : Option Nat
  content : Str
  embedding : List ℚ
  metadata : Str
deriving DecidableEq

/-- The MERGE key `(course, source_uri, chunk_no)`. -/
def rowKey (r : ChunkRow) : Str × Str × Nat := (r.course, r.sourceUri, r.chunkNo)

/-- WHEN MATCHED THEN UPDATE: replace section, pages, content, embedding and
metadata; the key columns stay those of the existing row. -/
def updateRow (old new : ChunkRow) : ChunkRow :=
  { course := old.course, sourceUri := old.sourceUri, chunkNo := old.chunkNo,
    sect := new.sect, pageFrom := new.pageFrom, pageTo := new.pageTo,
    content := new.content, embedding := new.embedding, metadata := new.metadata }

/-- One MERGE statement for one source row: update the row with the matching
key, or insert the new row at the end. -/
def mergeRow : List ChunkRow → ChunkRow → List ChunkRow
  | [], r => [r]
  | x :: xs, r =>
    if rowKey x = rowKey r then updateRow x r :: xs else x :: mergeRow xs r

/-- `upsert_chunks(conn, rows)`: MERGE each row in order (the batching and
periodic commits do not change the final table contents). -/
def upsert_chunks (table rows : List ChunkRow) : List ChunkRow :=
  rows.foldl mergeRow table

/-- The unique-index invariant on `(course, source_uri, chunk_no)`. -/
def UniqueKeys (table : List ChunkRow) : Prop := (table.map rowKey).Nodup

/-- Lookup of the first row with the given key. -/
def findRow (table : List ChunkRow) (k : Str × Str × Nat) : Option ChunkRow :=
  table.find? (fun r => decide (rowKey r = k))

/-- The rows one document contributes to the upsert: chunk numbers are
`enumerate(chunks, start=1)`, `page_from` is 1 when a page/slide count is
known, content and embedding are zipped positionally. -/
def mkDocRows (course uri meta : Str) (pageTo : Option Nat)
    (chunks : List Str) (embs : List (List ℚ)) : List ChunkRow :=
  (chunks.zip embs).enum.map (fun ie =>
    { course := course, sourceUri := uri, chunkNo := ie.1 + 1, sect := none,
      pageFrom := if pageTo.isSome then some 1 else none, pageTo := pageTo,
      content := ie.2.1, embedding := ie.2.2, metadata := meta })

lemma rowKey_updateRow (x r : ChunkRow) : rowKey (updateRow x r) = rowKey x := rfl

lemma updateRow_self_of_key_eq (x r : ChunkRow) (h : rowKey x = rowKey r) :
    updateRow x r = r := by
  cases x; cases r
  simp only [rowKey, Prod.mk.injEq] at h
  simp [updateRow, h.1, h.2.1, h.2.2]

/-- A MERGE preserves the existing keys in order; a new key is appended. -/
lemma keys_mergeRow (t : List ChunkRow) (r : ChunkRow) :
    (mergeRow t r).map rowKey =
      if rowKey r ∈ t.map rowKey then t.map rowKey
      else t.map rowKey ++ [rowKey r] := by
  induction t with
  | nil => simp [mergeRow]
  | cons x xs ih =>
    by_cases h : rowKey x = rowKey r
    · simp [mergeRow, h, rowKey_updateRow]
    · by_cases hm : rowKey r ∈ xs.map rowKey <;>
        simp [mergeRow, h, ih, hm, Ne.symm h]

lemma findRow_mergeRow_self (t : List ChunkRow) (r : ChunkRow) :
    findRow (mergeRow t r) (rowKey r) = some r := by
  induction t with
  | nil => simp [mergeRow, findRow]
  | cons x xs ih =>
    by_cases h : rowKey x = rowKey r
    · simp [mergeRow, h, findRow, updateRow_self_of_key_eq x r h]
    · simpa [mergeRow, h, findRow] using ih

lemma findRow_mergeRow_other (t : List ChunkRow) (r : ChunkRow)
    (k : Str × Str × Nat) (h : k ≠ rowKey r) :
    findRow (mergeRow t r) k = findRow t k := by
  induction t with
  | nil => simp [mergeRow, findRow, Ne.symm h]
  | cons x xs ih =>
    by_cases hx : rowKey x = rowKey r
    · have hxk : rowKey x ≠ k := by
        intro habs
        exact h (by rw [← habs]; exact hx)
      simp only [mergeRow, if_pos hx]
      rw [findRow, findRow,
        List.find?_cons_of_neg _ (by simp [rowKey_updateRow, hxk]),
        List.find?_cons_of_neg _ (by simp [hxk])]
    · simp only [mergeRow, if_neg hx]
      by_cases hk : rowKey x = k
      · rw [findRow, findRow,
          List.find?_cons_of_pos _ (by simp [hk]),
          List.find?_cons_of_pos _ (by simp [hk])]
      · rw [findRow, findRow,
          List.find?_cons_of_neg _ (by simp [hk]),
          List.find?_cons_of_neg _ (by simp [hk])]
        exact ih

/-- A table that already stores exactly `r` under `r`'s key absorbs the
MERGE of `r`. -/
lemma mergeRow_absorb (t : List ChunkRow) (r : ChunkRow)
    (h : findRow t (rowKey r) = some r) : mergeRow t r = t := by
  induction t with
  | nil => simp [findRow] at h
  | cons x xs ih =>
    by_cases hx : rowKey x = rowKey r
    · have hxr : x = r := by
        rw [findRow, List.find?_cons_of_pos _ (by simp [hx])] at h
        simpa using h
      subst hxr
      simp [mergeRow, hx, updateRow_self_of_key_eq x x rfl]
    · have h' : findRow xs (rowKey r) = some r := by
        rw [findRow, List.find?_cons_of_neg _ (by simp [hx])] at h
        exact h
      simp [mergeRow, hx, ih h']

lemma findRow_upsert_not_mem (rows : List ChunkRow) :
    ∀ (t : List ChunkRow) (k : Str × Str × Nat), k ∉ rows.map rowKey →
      findRow (upsert_chunks t rows) k = findRow t k := by
  induction rows with
  | nil => intro t k _; rfl
  | cons r rs ih =>
    intro t k hk
    simp only [List.map_cons, List.mem_cons, not_or] at hk
    show findRow (upsert_chunks (mergeRow t r) rs) k = findRow t k
    rw [ih (mergeRow t r) k hk.2, findRow_mergeRow_other t r k hk.1]

lemma findRow_upsert_self (rows : List ChunkRow)
    (hnd : (rows.map rowKey).Nodup) :
    ∀ (t : List ChunkRow) (r : ChunkRow), r ∈ rows →
      findRow (upsert_chunks t rows) (rowKey r) = some r := by
  induction rows with
  | nil => intro t r hr; cases hr
  | cons x xs ih =>
    intro t r hr
    simp only [List.map_cons, List.nodup_cons] at hnd
    rcases List.mem_cons.mp hr with rfl | hr
    · show findRow (upsert_chunks (mergeRow t r) xs) (rowKey r) = some r
      rw [findRow_upsert_not_mem xs (mergeRow t r) (rowKey r) hnd.1]
      exact findRow_mergeRow_self t r
    · exact ih hnd.2 (mergeRow t x) r hr

lemma upsert_absorb_all (rows t : List ChunkRow)
    (h : ∀ r ∈ rows, mergeRow t r = t) : upsert_chunks t rows = t := by
  induction rows with
  | nil => rfl
  | cons x xs ih =>
    show upsert_chunks (mergeRow t x) xs = t
    rw [h x (List.mem_cons_self x xs)]
    exact ih fun r hr => h r (List.mem_cons_of_mem x hr)

lemma uniqueKeys_mergeRow (t : List ChunkRow) (r : ChunkRow)
    (h : UniqueKeys t) : UniqueKeys (mergeRow t r) := by
  unfold UniqueKeys at h ⊢
  rw [keys_mergeRow]
  by_cases hm : rowKey r ∈ t.map rowKey
  · simpa [hm] using h
  · simp [hm, List.nodup_append, h]

lemma uniqueKeys_upsert (rows : List ChunkRow) :
    ∀ t, UniqueKeys t → UniqueKeys (upsert_chunks t rows) := by
  induction rows with
  | nil => intro t h; exact h
  | cons x xs ih => intro t h; exact ih (mergeRow t x) (uniqueKeys_mergeRow t x h)

lemma mkDocRows_keys_nodup (c u meta : Str) (pt : Option Nat)
    (chunks : List Str) (embs : List (List ℚ)) :
    ((mkDocRows c u meta pt chunks embs).map rowKey).Nodup := by
  have hmap : (mkDocRows c u meta pt chunks embs).map rowKey =
      (List.range (chunks.zip embs).length).map (fun i => (c, u, i + 1)) := by
    rw [mkDocRows, List.map_map, ← List.enum_map_fst (chunks.zip embs),
      List.map_map]
    rfl
  rw [hmap]
  exact (List.nodup_range _).map fun a b hab => by simpa using hab

/-- C1: re-ingesting a document through the MERGE upsert is idempotent: the
second run leaves the table (contents, embeddings, metadata, row count and
order) unchanged and creates no duplicate keys; and a single MERGE never
changes the key column of any row (keys are preserved, a new key is
appended) while a matched row's payload is replaced by the incoming row. -/
theorem upsert_reingest_idempotent (t : List ChunkRow) (c u meta : Str)
    (pt : Option Nat) (chunks : List Str) (embs : List (List ℚ))
    (h : UniqueKeys t) :
    upsert_chunks (upsert_chunks t (mkDocRows c u meta pt chunks embs))
        (mkDocRows c u meta pt chunks embs) =
      upsert_chunks t (mkDocRows c u meta pt chunks embs) ∧
    UniqueKeys (upsert_chunks t (mkDocRows c u meta pt chunks embs)) ∧
    (∀ (tb : List ChunkRow) (r : ChunkRow),
      (mergeRow tb r).map rowKey =
        if rowKey r ∈ tb.map rowKey then tb.map rowKey
        else tb.map rowKey ++ [rowKey r]) ∧
    (∀ (tb : List ChunkRow) (r : ChunkRow),
      findRow (mergeRow tb r) (rowKey r) = some r) := by
  refine ⟨?_, uniqueKeys_upsert _ t h, keys_mergeRow, findRow_mergeRow_self⟩
  apply upsert_absorb_all
  intro r hr
  exact mergeRow_absorb _ r
    (findRow_upsert_self _ (mkDocRows_keys_nodup c u meta pt chunks embs) t r hr)

/-- Witness for C1 at a concrete two-chunk document. -/
theorem upsert_reingest_idempotent_witness :
    upsert_chunks
        (upsert_chunks [] (mkDocRows ['c'] ['u'] ['m'] none [['a'], ['b']]
          [[1], [2]]))
        (mkDocRows ['c'] ['u'] ['m'] none [['a'], ['b']] [[1], [2]]) =
      upsert_chunks [] (mkDocRows ['c'] ['u'] ['m'] none [['a'], ['b']]
        [[1], [2]]) :=
  (upsert_reingest_idempotent [] ['c'] ['u'] ['m'] none [['a'], ['b']]
    [[1], [2]] (by simp [UniqueKeys])).1

/-! ## Retrieval and ranking

Embeds `RAGEngine.search` (`src/rag_engine.py:44-92`) over exact rationals.
`_load_vectors` L2-normalizes the stored matrix (flooring norms at `1e-12`)
and `sklearn.cosine_similarity` normalizes both inputs again, so for rows
that are unit or all-zero the scores are plain dot products; the
normalization itself involves square roots, which cannot be represented in
ℚ, so it is expressed as the `unitOrZero` hypothesis on the stored rows and
the query.  `np.argsort(scores)[-top_k:][::-1]` is modelled with a stable
ascending sort of the index list. -/

/-- A dense vector. -/
abbrev Vec := List ℚ

/-- Dot product of two vectors (positionally zipped). -/
def dotQ : Vec → Vec → ℚ
  | [], _ => 0
  | _, [] => 0
  | a :: xs, b :: ys => a * b + dotQ xs ys

/-- The score row `cosine_similarity(query_vec, self.embeddings)[0]`. -/
def scoresOf (q : Vec) (db : List Vec) : List ℚ := db.map (dotQ q)

/-- Score of index `i` (out-of-range reads default to 0, only used in
range). -/
def sAt (s : List ℚ) (i : Nat) : ℚ := s.getD i 0

/-- `np.argsort(scores)`: indices sorted by ascending score.  numpy's
default sort is modelled as stable (equal scores keep index order). -/
def argsortQ (s : List ℚ) : List Nat :=
  List.insertionSort (fun i j => sAt s i ≤ sAt s j) (List.range s.length)

/-- `np.argsort(scores)[-top_k:][::-1]`: the `top_k` largest indices,
highest score first (Python's `[-0:]` slice is the whole array). -/
def topKIdxs (s : List ℚ) (k : Nat) : List Nat :=
  (if k = 0 then argsortQ s else (argsortQ s).drop (s.length - k)).reverse

/-- Index order in which `search` returns its results. -/
def searchIdxs (q : Vec) (db : List Vec) (k : Nat) : List Nat :=
  topKIdxs (scoresOf q db) k

/-- The error sklearn's `check_array` raises when the corpus matrix is
empty. -/
def sklearnEmptyMsg : String :=
  "Found array with 0 sample(s) while a minimum of 1 is required"

/-- `cosine_similarity` rejects an empty corpus matrix: with zero stored
rows `_load_vectors` leaves `self.embeddings = []` and
`sklearn.check_array` raises `ValueError`. -/
def cosine_similarityE (q : Vec) (db : List Vec) : Except String (List ℚ) :=
  if db.isEmpty then .error sklearnEmptyMsg else .ok (scoresOf q db)

/-- `RAGEngine.search` including the exception behaviour of its
`cosine_similarity` call. -/
def searchE (q : Vec) (db : List Vec) (k : Nat) : Except String (List Nat) :=
  match cosine_similarityE q db with
  | .error e => .error e
  | .ok s => .ok (topKIdxs s k)

/-- A stored row is a unit vector or all zeros (the result of the
normalization with zero-norm guard). -/
def unitOrZero (v : Vec) : Prop := dotQ v v = 1 ∨ ∀ a ∈ v, a = 0

instance (v : Vec) : Decidable (unitOrZero v) :=
  decidable_of_iff (dotQ v v = 1 ∨ ∀ a ∈ v, a = 0) Iff.rfl

lemma dotQ_eq_sum (x : Vec) : ∀ y : Vec,
    dotQ x y = ∑ i ∈ Finset.range (min x.length y.length),
      x.getD i 0 * y.getD i 0 := by
  induction x with
  | nil => intro y; simp [dotQ]
  | cons a xs ih =>
    intro y
    cases y with
    | nil => simp [dotQ]
    | cons b ys =>
      rw [show dotQ (a :: xs) (b :: ys) = a * b + dotQ xs ys from rfl, ih ys]
      have hmin : min (a :: xs).length (b :: ys).length =
          min xs.length ys.length + 1 := by
        simp only [List.length_cons]
        omega
      rw [hmin, Finset.sum_range_succ']
      simp only [List.getD_cons_succ, List.getD_cons_zero]
      ring

lemma dotQ_zero_left (x : Vec) (hx : ∀ a ∈ x, a = 0) : ∀ y, dotQ x y = 0 := by
  induction x with
  | nil => intro y; simp [dotQ]
  | cons a xs ih =>
    intro y
    cases y with
    | nil => simp [dotQ]
    | cons b ys =>
      have ha : a = 0 := hx a (List.mem_cons_self a xs)
      have := ih (fun c hc => hx c (List.mem_cons_of_mem a hc)) ys
      simp [dotQ, ha, this]

/-- Cauchy–Schwarz for list dot products over ℚ. -/
lemma dotQ_sq_le (x y : Vec) : dotQ x y * dotQ x y ≤ dotQ x x * dotQ y y := by
  have hcs := Finset.sum_mul_sq_le_sq_mul_sq (Finset.range (min x.length y.length))
    (fun i => x.getD i 0) (fun i => y.getD i 0)
  simp only [pow_two] at hcs
  have hx : ∑ i ∈ Finset.range (min x.length y.length), x.getD i 0 * x.getD i 0 ≤
      dotQ x x := by
    rw [dotQ_eq_sum x x, min_self]
    exact Finset.sum_le_sum_of_subset_of_nonneg
      (Finset.range_subset.mpr (min_le_left _ _))
      (fun i _ _ => mul_self_nonneg _)
  have hy : ∑ i ∈ Finset.range (min x.length y.length), y.getD i 0 * y.getD i 0 ≤
      dotQ y y := by
    rw [dotQ_eq_sum y y, min_self]
    exact Finset.sum_le_sum_of_subset_of_nonneg
      (Finset.range_subset.mpr (min_le_right _ _))
      (fun i _ _ => mul_self_nonneg _)
  have h1 : ∑ i ∈ Finset.range (min x.length y.length), x.getD i 0 * x.getD i 0 ≥ 0 :=
    Finset.sum_nonneg fun i _ => mul_self_nonneg _
  have h2 : ∑ i ∈ Finset.range (min x.length y.length), y.getD i 0 * y.getD i 0 ≥ 0 :=
    Finset.sum_nonneg fun i _ => mul_self_nonneg _
  calc dotQ x y * dotQ x y
      = (∑ i ∈ Finset.range (min x.length y.length), x.getD i 0 * y.getD i 0) *
        (∑ i ∈ Finset.range (min x.length y.length), x.getD i 0 * y.getD i 0) := by
        rw [dotQ_eq_sum]
    _ ≤ _ := hcs
    _ ≤ dotQ x x * dotQ y y := mul_le_mul hx hy h2 (le_trans h1 hx)

lemma dotQ_zero_right : ∀ (x y : Vec), (∀ a ∈ y, a = 0) → dotQ x y = 0
  | [], _, _ => by simp [dotQ]
  | _ :: _, [], _ => by simp [dotQ]
  | a :: xs, b :: ys, hy => by
    have hb : b = 0 := hy b (List.mem_cons_self b ys)
    have hrec := dotQ_zero_right xs ys (fun c hc => hy c (List.mem_cons_of_mem b hc))
    simp [dotQ, hb, hrec]

/-- Scores between unit-or-zero vectors lie in `[-1, 1]`. -/
lemma dotQ_bounds (q v : Vec) (hq : unitOrZero q) (hv : unitOrZero v) :
    -1 ≤ dotQ q v ∧ dotQ q v ≤ 1 := by
  rcases hq with hq1 | hq0
  · rcases hv with hv1 | hv0
    · have h := dotQ_sq_le q v
      rw [hq1, hv1] at h
      constructor <;> nlinarith [h]
    · rw [dotQ_zero_right q v hv0]
      norm_num
  · rw [dotQ_zero_left q hq0 v]
    norm_num

/-- Strict ranking order on indices: lower score, or equal score and lower
storage index.  The stable ascending argsort is sorted by this relation. -/
def rankRel (s : List ℚ) (i j : Nat) : Prop :=
  sAt s i < sAt s j ∨ (sAt s i = sAt s j ∧ i < j)

lemma orderedInsert_pairwise (s : List ℚ) (x : Nat) :
    ∀ l : List Nat, l.Pairwise (rankRel s) → (∀ y ∈ l, x < y) →
    (List.orderedInsert (fun i j => sAt s i ≤ sAt s j) x l).Pairwise (rankRel s) := by
  intro l
  induction l with
  | nil => intro _ _; simp
  | cons b bs ih =>
    intro hl hx
    rw [List.orderedInsert]
    rcases List.pairwise_cons.mp hl with ⟨hbAll, hbs⟩
    by_cases hxb : sAt s x ≤ sAt s b
    · rw [if_pos hxb]
      refine List.pairwise_cons.mpr ⟨?_, hl⟩
      intro y hy
      rcases List.mem_cons.mp hy with rfl | hy'
      · rcases lt_or_eq_of_le hxb with hlt | heq
        · exact Or.inl hlt
        · exact Or.inr ⟨heq, hx y (List.mem_cons_self y bs)⟩
      · rcases hbAll y hy' with h1 | h2
        · exact Or.inl (lt_of_le_of_lt hxb h1)
        · rcases lt_or_eq_of_le hxb with hlt | heq
          · exact Or.inl (lt_of_lt_of_le hlt (le_of_eq h2.1))
          · exact Or.inr ⟨heq.trans h2.1, hx y (List.mem_cons_of_mem b hy')⟩
    · rw [if_neg hxb]
      have hbx : sAt s b < sAt s x := lt_of_not_le hxb
      refine List.pairwise_cons.mpr ⟨?_, ih hbs (fun y hy => hx y (List.mem_cons_of_mem b hy))⟩
      intro y hy
      rcases (List.mem_orderedInsert _).mp hy with rfl | hy'
      · exact Or.inl hbx
      · exact hbAll y hy'

lemma argsort_pairwise (s : List ℚ) : (argsortQ s).Pairwise (rankRel s) := by
  have key : ∀ l : List Nat, l.Pairwise (· < ·) →
      (List.insertionSort (fun i j => sAt s i ≤ sAt s j) l).Pairwise (rankRel s) := by
    intro l
    induction l with
    | nil => intro _; simp
    | cons x xs ih =>
      intro hp
      rcases List.pairwise_cons.mp hp with ⟨hxall, hxs⟩
      rw [List.insertionSort]
      apply orderedInsert_pairwise
      · exact ih hxs
      · intro y hy
        exact hxall y ((List.perm_insertionSort _ xs).mem_iff.mp hy)
  exact key _ (List.pairwise_lt_range s.length)

lemma topKIdxs_pairwise (s : List ℚ) (k : Nat) :
    (topKIdxs s k).Pairwise (fun i j => rankRel s j i) := by
  unfold topKIdxs
  rw [List.pairwise_reverse]
  by_cases hk : k = 0
  · rw [if_pos hk]
    exact argsort_pairwise s
  · rw [if_neg hk]
    exact (argsort_pairwise s).sublist (List.drop_sublist _ _)

lemma mem_searchIdxs_lt (q : Vec) (db : List Vec) (k i : Nat)
    (hi : i ∈ searchIdxs q db k) : i < db.length := by
  unfold searchIdxs topKIdxs at hi
  rw [List.mem_reverse] at hi
  have hi' : i ∈ argsortQ (scoresOf q db) := by
    by_cases hk : k = 0
    · rw [if_pos hk] at hi; exact hi
    · rw [if_neg hk] at hi; exact (List.drop_sublist _ _).subset hi
  have hr := (List.perm_insertionSort _ _).mem_iff.mp hi'
  rw [List.mem_range] at hr
  simpa [scoresOf] using hr

lemma sAt_scoresOf (q : Vec) (db : List Vec) (i : Nat) (hi : i < db.length) :
    sAt (scoresOf q db) i = dotQ q db[i] := by
  unfold sAt scoresOf
  have h' : (db.map (dotQ q))[i]? = some (dotQ q db[i]) := by
    rw [List.getElem?_map, List.getElem?_eq_getElem hi]
    rfl
  rw [List.getD_eq_getElem?_getD, h']
  rfl

/-- C4 counterexample: two identical stored vectors produce tied scores, and
`search` with `top_k = 2` returns index 1 before index 0 — the reverse of
the storage order, contradicting the claimed stable tie-break. -/
theorem search_tie_order_counterexample :
    searchIdxs [1, 0] [[1, 0], [1, 0]] 2 = [1, 0] ∧
    sAt (scoresOf [1, 0] [[1, 0], [1, 0]]) 0 =
      sAt (scoresOf [1, 0] [[1, 0], [1, 0]]) 1 := by
  with_unfolding_all decide

/-- C4 (amended): `search` returns results ordered by strictly descending
score with equal scores in reverse storage order (later rows first); under
the normalization hypotheses every returned score lies in `[-1, 1]`; and on
the concrete corpus `[1,0], [0,1], [0.7,0.7]` with query `[1,0]` and
`top_k = 2` it returns the first vector (score 1) then the third, never the
second. -/
theorem search_ranking_amended :
    (∀ (q : Vec) (db : List Vec) (k : Nat),
      (searchIdxs q db k).Pairwise (fun i j =>
        sAt (scoresOf q db) j < sAt (scoresOf q db) i ∨
        (sAt (scoresOf q db) j = sAt (scoresOf q db) i ∧ j < i))) ∧
    (∀ (q : Vec) (db : List Vec) (k : Nat), unitOrZero q →
      (∀ v ∈ db, unitOrZero v) →
      ∀ i ∈ searchIdxs q db k,
        -1 ≤ sAt (scoresOf q db) i ∧ sAt (scoresOf q db) i ≤ 1) ∧
    searchIdxs [1, 0] [[1, 0], [0, 1], [7/10, 7/10]] 2 = [0, 2] ∧
    sAt (scoresOf [1, 0] [[1, 0], [0, 1], [7/10, 7/10]]) 0 = 1 := by
  refine ⟨?_, ?_, by with_unfolding_all decide, by with_unfolding_all decide⟩
  · intro q db k
    exact topKIdxs_pairwise (scoresOf q db) k
  · intro q db k hq hdb i hi
    have hlt := mem_searchIdxs_lt q db k i hi
    rw [sAt_scoresOf q db i hlt]
    exact dotQ_bounds q db[i] hq (hdb db[i] (List.getElem_mem hlt))

/-- Witness for the amended C4 at a concrete corpus. -/
theorem search_ranking_amended_witness :
    -1 ≤ sAt (scoresOf [1, 0] [[0, 1]]) 0 ∧ sAt (scoresOf [1, 0] [[0, 1]]) 0 ≤ 1 :=
  search_ranking_amended.2.1 [1, 0] [[0, 1]] 5
    (by with_unfolding_all decide) (by with_unfolding_all decide) 0
    (by with_unfolding_all decide)

/-- C5 counterexample: `search` against a corpus with zero stored chunks
does not return an empty result sequence — the `cosine_similarity` call
rejects the empty matrix and the call fails. -/
theorem search_empty_corpus_counterexample :
    searchE [1] [] 5 = Except.error sklearnEmptyMsg ∧
    ∀ l : List Nat, searchE [1] [] 5 ≠ Except.ok l :=
  ⟨rfl, fun _ h => Except.noConfusion h⟩

/-- C5 (amended): for every query and `top_k`, `search` against an empty
corpus raises (sklearn's `check_array` rejects a matrix with zero samples)
instead of returning an empty sequence. -/
theorem search_empty_corpus_errors (q : Vec) (k : Nat) :
    searchE q [] k = Except.error sklearnEmptyMsg := rfl

/-! ## Query records and the quiz state machine

Embeds `DatabaseManager.log_query` / `mark_correct` /
`get_random_past_query` (`src/database.py`) and the `/mcq/check` handler
`check_answer` (`api.py:638-653`).  The `USER_QUERIES` table is a list of
rows in storage order; `sha256` of the normalized text is modelled as an
injective function of the normalized text, i.e. the normalized text
itself. -/

/-- Python `str.lower` (ASCII-faithful). -/
def pyLower (s : Str) : Str := s.map Char.toLower

/-- Python `str.upper` (ASCII-faithful). -/
def pyUpper (s : Str) : Str := s.map Char.toUpper

/-- Python `str.strip`. -/
def pyStrip (s : Str) : Str :=
  ((s.dropWhile Char.isWhitespace).reverse.dropWhile Char.isWhitespace).reverse

/-- `hashlib.sha256(query_text.lower().strip().encode()).hexdigest()`,
with sha256 modelled as injective. -/
def queryHash (s : Str) : Str := pyStrip (pyLower s)

/-- A row of the `USER_QUERIES` table. -/
structure QueryRecord where
  userId : Str
  queryText : Str
  queryHash : Str
  answeredCorrectly : Bool
  isGuest : Bool
deriving DecidableEq

/-- `SELECT COUNT(*) FROM USER_QUERIES WHERE user_id = :1 AND query_hash = :2`. -/
def countQ (db : List QueryRecord) (u h : Str) : Nat :=
  (db.filter (fun r => decide (r.userId = u ∧ r.queryHash = h))).length

/-- `DatabaseManager.log_query`: insert a new row (answered_correctly
defaults to `'N'`) only when no row with this `(user_id, query_hash)`
exists; otherwise a no-op. -/
def log_query (db : List QueryRecord) (u t : Str) (guest : Bool) :
    List QueryRecord :=
  if countQ db u (queryHash t) = 0 then
    db ++ [{ userId := u, queryText := t, queryHash := queryHash t,
             answeredCorrectly := false, isGuest := guest }]
  else db

/-- `DatabaseManager.mark_correct`: `UPDATE ... SET answered_correctly='Y'
WHERE user_id = :1 AND query_hash = :2` (hash of the normalized topic). -/
def mark_correct (db : List QueryRecord) (u t : Str) : List QueryRecord :=
  db.map (fun r =>
    if r.userId = u ∧ r.queryHash = queryHash t then
      { r with answeredCorrectly := true }
    else r)

/-- `/mcq/check` (`api.py check_answer`): case-insensitive answer
comparison; `db.mark_correct` runs only for a correct first attempt with a
truthy user id.  Returns the table plus `(is_correct, marked_mastered)`. -/
def check_answer (db : List QueryRecord) (userAnswer correctAnswer : Str)
    (isFirstAttempt : Bool) (userId : Option Str) (topic : Str) :
    List QueryRecord × Bool × Bool :=
  let isCorrect := pyUpper userAnswer == pyUpper correctAnswer
  match userId with
  | some uid =>
    if isCorrect && isFirstAttempt && !uid.isEmpty then
      (mark_correct db uid topic, isCorrect, true)
    else (db, isCorrect, false)
  | none => (db, isCorrect, false)

/-- The user's `answered_correctly = 'N'` rows in storage order. -/
def unmasteredOf (db : List QueryRecord) (u : Str) : List QueryRecord :=
  db.filter (fun r => decide (r.userId = u ∧ r.answeredCorrectly = false))

/-- `DatabaseManager.get_random_past_query`: `ORDER BY DBMS_RANDOM.VALUE`
then `ROWNUM = 1` picks one of the user's unmastered rows uniformly at
random; the random draw is modelled by an arbitrary `k`, reduced modulo the
candidate count. -/
def get_random_past_query (db : List QueryRecord) (u : Str) (k : Nat) :
    Option QueryRecord :=
  (unmasteredOf db u)[k % (unmasteredOf db u).length]?

lemma countQ_append_single (db : List QueryRecord) (r : QueryRecord)
    (u h : Str) :
    countQ (db ++ [r]) u h =
      countQ db u h + if r.userId = u ∧ r.queryHash = h then 1 else 0 := by
  unfold countQ
  rw [List.filter_append, List.length_append]
  by_cases hr : r.userId = u ∧ r.queryHash = h <;> simp [hr]

lemma log_query_noop (db : List QueryRecord) (u t : Str) (g : Bool)
    (h : countQ db u (queryHash t) ≠ 0) : log_query db u t g = db := by
  unfold log_query
  rw [if_neg h]

/-- C6: query logging deduplicates on the hash of the lower-cased,
whitespace-trimmed text: logging two strings that normalize identically
into a table that holds neither produces exactly one row for that user and
hash, and re-logging an already-hashed query is a successful no-op that
leaves the table unchanged. -/
theorem log_query_dedup_by_normalized_hash :
    (∀ (db : List QueryRecord) (u t1 t2 : Str) (g1 g2 : Bool),
      queryHash t1 = queryHash t2 →
      countQ db u (queryHash t1) = 0 →
      countQ (log_query (log_query db u t1 g1) u t2 g2) u (queryHash t1) = 1) ∧
    (∀ (db : List QueryRecord) (u t : Str) (g : Bool),
      countQ db u (queryHash t) ≠ 0 → log_query db u t g = db) := by
  constructor
  · intro db u t1 t2 g1 g2 hnorm h0
    have h1 : log_query db u t1 g1 =
        db ++ [{ userId := u, queryText := t1, queryHash := queryHash t1,
                 answeredCorrectly := false, isGuest := g1 }] := by
      unfold log_query
      rw [if_pos h0]
    have hc1 : countQ (log_query db u t1 g1) u (queryHash t1) = 1 := by
      rw [h1, countQ_append_single, h0]
      simp
    have hc2 : countQ (log_query db u t1 g1) u (queryHash t2) = 1 := by
      rw [← hnorm]
      exact hc1
    rw [log_query_noop _ u t2 g2 (by rw [hc2]; omega)]
    exact hc1
  · exact log_query_noop

/-- Witness for C6 on the spec's example strings: "What is a DataFrame?"
and "what is a dataframe?  " normalize to the same hash, so logging both
leaves exactly one row. -/
theorem log_query_dedup_by_normalized_hash_witness :
    countQ (log_query (log_query [] ['u']
        ['W','h','a','t',' ','i','s',' ','a',' ','D','a','t','a','F','r','a','m','e','?']
        false) ['u']
        ['w','h','a','t',' ','i','s',' ','a',' ','d','a','t','a','f','r','a','m','e','?',' ',' ']
        false) ['u']
      (queryHash
        ['W','h','a','t',' ','i','s',' ','a',' ','D','a','t','a','F','r','a','m','e','?']) = 1 := by
  have := log_query_dedup_by_normalized_hash.1 [] ['u']
    ['W','h','a','t',' ','i','s',' ','a',' ','D','a','t','a','F','r','a','m','e','?']
    ['w','h','a','t',' ','i','s',' ','a',' ','d','a','t','a','f','r','a','m','e','?',' ',' ']
    false false (by decide) (by decide)
  exact this

/-- C7: in the quiz state machine, a correct first-attempt answer on an
unmastered record of the quizzed topic sets `answered_correctly` to true;
an incorrect answer, or a correct answer not on the first attempt, leaves
the whole table unchanged; and no `check_answer` call on any topic ever
flips an already-mastered record back (rows keep their identity and the
mastered flag is monotone). -/
theorem check_answer_mastery :
    (∀ (db : List QueryRecord) (ua ca uid topic : Str) (i : Nat)
        (r : QueryRecord),
      db[i]? = some r → r.userId = uid → r.queryHash = queryHash topic →
      pyUpper ua = pyUpper ca → uid ≠ [] →
      (check_answer db ua ca true (some uid) topic).1[i]? =
        some { r with answeredCorrectly := true }) ∧
    (∀ (db : List QueryRecord) (ua ca : Str) (fa : Bool) (uid : Option Str)
        (topic : Str),
      pyUpper ua ≠ pyUpper ca ∨ fa = false →
      (check_answer db ua ca fa uid topic).1 = db) ∧
    (∀ (db : List QueryRecord) (ua ca : Str) (fa : Bool) (uid : Option Str)
        (topic : Str) (i : Nat) (r : QueryRecord),
      db[i]? = some r → r.answeredCorrectly = true →
      ∃ r', (check_answer db ua ca fa uid topic).1[i]? = some r' ∧
        r'.answeredCorrectly = true ∧ r'.userId = r.userId ∧
        r'.queryText = r.queryText ∧ r'.queryHash = r.queryHash) := by
  refine ⟨?_, ?_, ?_⟩
  · intro db ua ca uid topic i r hi hu hh hok hne
    have hemp : uid.isEmpty = false := by
      cases uid with
      | nil => exact absurd rfl hne
      | cons a l => rfl
    have hcond : (pyUpper ua == pyUpper ca && true && !uid.isEmpty) = true := by
      rw [hok, hemp]
      simp
    simp only [check_answer]
    rw [if_pos hcond]
    show (mark_correct db uid topic)[i]? = _
    unfold mark_correct
    rw [List.getElem?_map, hi]
    simp [hu, hh]
  · intro db ua ca fa uid topic hbad
    cases uid with
    | none => rfl
    | some uid =>
      have hcond : ((pyUpper ua == pyUpper ca) && fa && !uid.isEmpty) = false := by
        rcases hbad with h | h
        · simp [beq_eq_false_iff_ne.mpr h]
        · simp [h]
      simp [check_answer, hcond]
  · intro db ua ca fa uid topic i r hi hr
    cases uid with
    | none => exact ⟨r, by simpa [check_answer] using hi, hr, rfl, rfl, rfl⟩
    | some uid =>
      by_cases hcond : ((pyUpper ua == pyUpper ca) && fa && !uid.isEmpty) = true
      · refine ⟨if r.userId = uid ∧ r.queryHash = queryHash topic then
            { r with answeredCorrectly := true } else r, ?_, ?_, ?_, ?_, ?_⟩
        · simp only [check_answer, hcond, if_true]
          unfold mark_correct
          rw [List.getElem?_map, hi]
          rfl
        · by_cases hc : r.userId = uid ∧ r.queryHash = queryHash topic <;>
            simp [hc, hr]
        · by_cases hc : r.userId = uid ∧ r.queryHash = queryHash topic <;>
            simp [hc]
        · by_cases hc : r.userId = uid ∧ r.queryHash = queryHash topic <;>
            simp [hc]
        · by_cases hc : r.userId = uid ∧ r.queryHash = queryHash topic <;>
            simp [hc]
      · refine ⟨r, ?_, hr, rfl, rfl, rfl⟩
        simp only [check_answer, hcond]
        simpa using hi

/-- Witness for C7: a correct first-attempt answer marks the single
unmastered record mastered. -/
theorem check_answer_mastery_witness :
    (check_answer
        [{ userId := ['u'], queryText := ['q'], queryHash := queryHash ['q'],
           answeredCorrectly := false, isGuest := false }]
        ['a'] ['A'] true (some ['u']) ['q']).1[0]? =
      some { userId := ['u'], queryText := ['q'], queryHash := queryHash ['q'],
             answeredCorrectly := true, isGuest := false } :=
  check_answer_mastery.1
    [{ userId := ['u'], queryText := ['q'], queryHash := queryHash ['q'],
       answeredCorrectly := false, isGuest := false }]
    ['a'] ['A'] ['u'] ['q'] 0 _ rfl rfl rfl (by decide) (by decide)

/-- C8 counterexample: the question asked in the current turn (logged by the
chat handler before `/mcq/generate` runs) is not excluded from next-quiz
selection — with it as the only unmastered record, selection returns it. -/
theorem next_quiz_selects_current_question :
    (get_random_past_query (log_query [] ['u'] ['q','1'] true) ['u'] 0).map
        (fun r => r.queryText) = some ['q','1'] := by
  decide

/-- C8 (amended): next-quiz selection draws uniformly (each draw index below
the candidate count picks a distinct candidate, and every candidate is
reachable) among all of the user's unmastered records — including the
question just asked, which is not excluded; a mastered record is never
selected; and an empty candidate set yields no quiz rather than an error. -/
theorem next_quiz_selection_amended :
    (∀ (db : List QueryRecord) (u : Str) (k : Nat) (r : QueryRecord),
      get_random_past_query db u k = some r →
      r.userId = u ∧ r.answeredCorrectly = false ∧ r ∈ db) ∧
    (∀ (db : List QueryRecord) (u : Str) (r : QueryRecord),
      r ∈ db → r.userId = u → r.answeredCorrectly = false →
      ∃ k, get_random_past_query db u k = some r) ∧
    (∀ (db : List QueryRecord) (u : Str) (k : Nat),
      k < (unmasteredOf db u).length →
      get_random_past_query db u k = (unmasteredOf db u)[k]?) ∧
    (∀ (db : List QueryRecord) (u : Str) (k : Nat),
      unmasteredOf db u = [] → get_random_past_query db u k = none) := by
  refine ⟨?_, ?_, ?_, ?_⟩
  · intro db u k r hr
    have hmem : r ∈ unmasteredOf db u := by
      unfold get_random_past_query at hr
      exact List.getElem?_mem hr
    have := List.of_mem_filter hmem
    simp only [decide_eq_true_eq] at this
    exact ⟨this.1, this.2, List.mem_of_mem_filter hmem⟩
  · intro db u r hmem hu hm
    have hr : r ∈ unmasteredOf db u := by
      unfold unmasteredOf
      rw [List.mem_filter]
      exact ⟨hmem, by simp [hu, hm]⟩
    obtain ⟨i, hi, hget⟩ := List.getElem_of_mem hr
    refine ⟨i, ?_⟩
    unfold get_random_past_query
    rw [Nat.mod_eq_of_lt hi, List.getElem?_eq_getElem hi, hget]
  · intro db u k hk
    unfold get_random_past_query
    rw [Nat.mod_eq_of_lt hk]
  · intro db u k h
    unfold get_random_past_query
    rw [h]
    simp

/-- Witness for the amended C8: the only unmastered record is selected and
is indeed unmastered and owned by the user. -/
theorem next_quiz_selection_amended_witness :
    ({ userId := ['u'], queryText := ['q'], queryHash := ['q'],
       answeredCorrectly := false, isGuest := false } : QueryRecord).userId =
        ['u'] ∧
    ({ userId := ['u'], queryText := ['q'], queryHash := ['q'],
       answeredCorrectly := false, isGuest := false } : QueryRecord).answeredCorrectly
      = false ∧
    ({ userId := ['u'], queryText := ['q'], queryHash := ['q'],
       answeredCorrectly := false, isGuest := false } : QueryRecord) ∈
      [({ userId := ['u'], queryText := ['q'], queryHash := ['q'],
          answeredCorrectly := false, isGuest := false } : QueryRecord)] :=
  next_quiz_selection_amended.1
    [{ userId := ['u'], queryText := ['q'], queryHash := ['q'],
       answeredCorrectly := false, isGuest := false }]
    ['u'] 0
    { userId := ['u'], queryText := ['q'], queryHash := ['q'],
      answeredCorrectly := false, isGuest := false }
    (by decide)

/-! ## Ingestion and the embedding-count check

Embeds `process_single_file` (`src/ingest.py:159-186`) and the per-file
loop of `main`.  The chunker output and the batched embedding call are
abstracted: a document is its chunk-text list, and `embed` is the external
service (`generate_embeddings_batched`), which on batch failures can return
fewer vectors than inputs.  `db.conn.commit()` runs inside the per-file
insert, so the store list is the committed state. -/

/-- A committed row of `DOC_CHUNKS_V4`. -/
structure StoredChunk where
  text : Str
  embedding : Vec
  metadata : Str
deriving DecidableEq

/-- `process_single_file`: embed the chunks, and only when the vector count
equals the chunk count insert them (each chunk zipped with its embedding)
and report the chunk count; otherwise skip the insert, return 0, and print
the mismatch warning (modelled as the returned flag). -/
def process_single_file (embed : List Str → List Vec)
    (store : List StoredChunk) (chunks : List Str) (meta : Str) :
    List StoredChunk × Nat × Bool :=
  let embs := embed chunks
  if embs.length = chunks.length then
    (store ++ (chunks.zip embs).map (fun ce => ⟨ce.1, ce.2, meta⟩),
      chunks.length, false)
  else
    (store, 0, true)

/-- The per-file loop of `ingest.main`: process each document in order,
threading the committed store. -/
def processFiles (embed : List Str → List Vec) :
    List (List Str × Str) → List StoredChunk → List StoredChunk
  | [], store => store
  | d :: ds, store =>
    processFiles embed ds (process_single_file embed store d.1 d.2).1

/-- C9: when the embedding step returns a vector count different from the
chunk count, nothing is written for that document, the count 0 is returned
and the mismatch is reported; when the counts agree, exactly the chunks
zipped with their embeddings are appended, so no chunk is ever stored
without its embedding; and the batch loop only ever appends, so chunks
already committed for earlier documents survive unchanged as a prefix of
every later store. -/
theorem embedding_mismatch_aborts_document :
    (∀ (embed : List Str → List Vec) (store : List StoredChunk)
        (chunks : List Str) (meta : Str),
      (embed chunks).length ≠ chunks.length →
      process_single_file embed store chunks meta = (store, 0, true)) ∧
    (∀ (embed : List Str → List Vec) (store : List StoredChunk)
        (chunks : List Str) (meta : Str),
      (embed chunks).length = chunks.length →
      (process_single_file embed store chunks meta).1 =
        store ++ (chunks.zip (embed chunks)).map (fun ce => ⟨ce.1, ce.2, meta⟩) ∧
      ((chunks.zip (embed chunks)).map
          (fun ce => (⟨ce.1, ce.2, meta⟩ : StoredChunk))).length =
        chunks.length) ∧
    (∀ (embed : List Str → List Vec) (docs : List (List Str × Str))
        (store : List StoredChunk),
      ∃ t, processFiles embed docs store = store ++ t) := by
  refine ⟨?_, ?_, ?_⟩
  · intro embed store chunks meta hne
    simp only [process_single_file]
    rw [if_neg hne]
  · intro embed store chunks meta heq
    constructor
    · simp only [process_single_file]
      rw [if_pos heq]
    · rw [List.length_map, List.length_zip, heq, min_self]
  · intro embed docs
    induction docs with
    | nil => intro store; exact ⟨[], by simp [processFiles]⟩
    | cons d ds ih =>
      intro store
      obtain ⟨t, ht⟩ := ih (process_single_file embed store d.1 d.2).1
      show ∃ t', processFiles embed ds (process_single_file embed store d.1 d.2).1 =
        store ++ t'
      by_cases hc : (embed d.1).length = d.1.length
      · refine ⟨(d.1.zip (embed d.1)).map (fun ce => ⟨ce.1, ce.2, d.2⟩) ++ t, ?_⟩
        rw [ht]
        simp only [process_single_file]
        rw [if_pos hc, List.append_assoc]
      · refine ⟨t, ?_⟩
        rw [ht]
        simp only [process_single_file]
        rw [if_neg hc]

/-- Witness for C9: an embedder that returns no vectors for one chunk

makes the insert skip and report, leaving the store unchanged. -/
theorem embedding_mismatch_aborts_document_witness :
    process_single_file (fun _ => []) [⟨['p'], [1], ['m']⟩] [['a']] ['m'] =
      ([⟨['p'], [1], ['m']⟩], 0, true) :=
  embedding_mismatch_aborts_document.1 (fun _ => []) [⟨['p'], [1], ['m']⟩]
    [['a']] ['m'] (by decide)

end RagFrontend
